import Mathlib

/-!
Verification of the maintenance-page server's progress logic.

The embedding models `server/server.js` and the client formatter in
`src/App.tsx`.  Machine numbers (JS doubles) are modelled as rationals;
timestamps are epoch milliseconds, durations are seconds, exactly as in
the source.  Both `Date.now()` reads inside a single request handler are
modelled as the same instant `now`.
-/

/-- A maintenance phase: `{ name, progress, duration }` from
`maintenancePhases` in server.js.  `progress` is the cumulative progress
percentage reached at the end of the phase, `duration` is in seconds. -/
structure Phase where
  name : String
  progress : ℚ
  duration : ℚ
deriving Repr, DecidableEq

/-- Result of `calculateCurrentProgress` (server.js lines 44-85). -/
structure PhaseResult where
  progress : ℚ
  phaseIndex : ℕ
  isComplete : Bool
deriving Repr, DecidableEq

/-- The fold `maintenancePhases.reduce((total, phase) => total + phase.duration, 0)`
(server.js line 37), generalised over the phase list. -/
def totalDuration (phases : List Phase) : ℚ :=
  (phases.map Phase.duration).sum

/-- The `for` loop of `calculateCurrentProgress` (server.js lines 52-84).
`n` is the length of the full phase list (used by the fall-through return
`phaseIndex: maintenancePhases.length - 1`), `acc` is `accumulatedTime`,
`pp` is `phaseStartProgress` of the current phase (`phases[i-1].progress`,
or `0` at `i = 0`), `i` is the loop counter. -/
def phaseLoop (elapsed : ℚ) (n : ℕ) : List Phase → ℚ → ℚ → ℕ → PhaseResult
  | [], _, _, _ => ⟨100, n - 1, true⟩
  | p :: rest, acc, pp, i =>
    if elapsed ≤ acc + p.duration then
      ⟨min (pp + (elapsed - acc) / p.duration * (p.progress - pp)) p.progress, i, false⟩
    else
      phaseLoop elapsed n rest (acc + p.duration) p.progress (i + 1)

/-- Body of `calculateCurrentProgress` (server.js lines 44-85) as a function
of the already-computed `elapsedSeconds`. -/
def calcProgress (phases : List Phase) (elapsedSeconds : ℚ) : PhaseResult :=
  if totalDuration phases ≤ elapsedSeconds then
    ⟨100, phases.length - 1, true⟩
  else
    phaseLoop elapsedSeconds phases.length phases 0 0 0

/-- The function `calculateCurrentProgress` (server.js lines 40-85): derives
`elapsedSeconds = (now - startTime) / 1000` from the clock and the stored
start timestamp (both in epoch milliseconds). -/
def calculateCurrentProgress (phases : List Phase) (startTime now : ℚ) : PhaseResult :=
  calcProgress phases ((now - startTime) / 1000)

/-- The compiled-in phase configuration (server.js lines 26-34). -/
def maintenancePhases : List Phase :=
  [⟨"Initializing maintenance", 10, 3⟩,
   ⟨"Backing up database", 25, 1800⟩,
   ⟨"Updating server components", 45, 600⟩,
   ⟨"Applying security patches", 65, 600⟩,
   ⟨"Optimizing performance", 80, 600⟩,
   ⟨"Running final tests", 95, 600⟩,
   ⟨"Maintenance complete", 100, 600⟩]

/-- The constant `totalDurationSeconds` (server.js line 37). -/
def totalDurationSeconds : ℚ := totalDuration maintenancePhases

/-- The in-memory `maintenanceState` object (server.js lines 17-23). -/
structure MaintenanceState where
  startTime : ℚ
  currentProgress : ℚ
  currentPhaseIndex : ℕ
  isComplete : Bool
  lastUpdated : ℚ
deriving Repr, DecidableEq

/-- JSON body of `GET /api/maintenance/status` (server.js lines 105-113). -/
structure StatusResponse where
  progress : ℚ
  phaseIndex : ℕ
  currentPhase : Phase
  isComplete : Bool
  remainingTimeSeconds : ℚ
  startTime : ℚ
  phases : List Phase
deriving Repr, DecidableEq

/-- The `GET /api/maintenance/status` handler (server.js lines 90-114):
returns the mutated `maintenanceState` and the response body.  The JS
fallback `maintenancePhases[idx] || maintenancePhases[length - 1]` is
modelled by `Option.getD`: an out-of-range index yields `undefined`
(falsy), an in-range phase object is always truthy. -/
def getStatusHandler (st : MaintenanceState) (now : ℚ) : MaintenanceState × StatusResponse :=
  let currentState := calculateCurrentProgress maintenancePhases st.startTime now
  let st' : MaintenanceState :=
    { st with
      currentProgress := currentState.progress
      currentPhaseIndex := currentState.phaseIndex
      isComplete := currentState.isComplete
      lastUpdated := now }
  let currentPhase :=
    (maintenancePhases.get? currentState.phaseIndex).getD
      (maintenancePhases.getD (maintenancePhases.length - 1) ⟨"", 0, 0⟩)
  let elapsedSeconds := (now - st.startTime) / 1000
  let remainingSeconds := max 0 (totalDurationSeconds - elapsedSeconds)
  (st', ⟨currentState.progress, currentState.phaseIndex, currentPhase,
         currentState.isComplete, remainingSeconds, st.startTime, maintenancePhases⟩)

/-- The `POST /api/maintenance/reset` handler (server.js lines 117-127):
replaces the whole state object. -/
def resetHandler (now : ℚ) : MaintenanceState :=
  { startTime := now
    currentProgress := 0
    currentPhaseIndex := 0
    isComplete := false
    lastUpdated := now }

/-- The client's `getRemainingTime` (src/App.tsx lines 49-66).
`Math.ceil` is `Int.ceil`; in the `≥ 60` branch `remainingMinutes` is a
positive integer, so JS `Math.floor(m / 60)` and `m % 60` agree with
integer division and remainder. -/
def getRemainingTime (remainingSeconds : ℚ) : String :=
  if remainingSeconds ≤ 0 then "Complete"
  else
    let remainingMinutes : ℤ := ⌈remainingSeconds / 60⌉
    if remainingMinutes < 60 then toString remainingMinutes ++ " minutes"
    else
      let hours := remainingMinutes / 60
      let minutes := remainingMinutes % 60
      if minutes = 0 then
        if hours = 1 then "1 hour" else toString hours ++ " hours"
      else
        if hours = 1 then "1 hour " ++ toString minutes ++ " minutes"
        else toString hours ++ " hours " ++ toString minutes ++ " minutes"

/-- Cumulative duration of the first `i` phases (the value of
`accumulatedTime` when the loop reaches index `i`). -/
def cumDuration (phases : List Phase) (i : ℕ) : ℚ :=
  ((phases.take i).map Phase.duration).sum

/-- Phase at index `i` (with a dummy default, only used in range). -/
def phaseAt (phases : List Phase) (i : ℕ) : Phase :=
  phases.getD i ⟨"", 0, 0⟩

/-- The value `phaseStartProgress` for index `i`
(`i > 0 ? phases[i-1].progress : 0`, server.js line 63). -/
def prevProg (phases : List Phase) (i : ℕ) : ℚ :=
  if i = 0 then 0 else (phaseAt phases (i - 1)).progress

/-- The `remainingSeconds` computation of the status handler (server.js
line 103), generalised over the phase list, as a function of elapsed
seconds. -/
def remainingOf (phases : List Phase) (elapsed : ℚ) : ℚ :=
  max 0 (totalDuration phases - elapsed)

/-- Generalisation of `prevProg` used while walking the list: the
`phaseStartProgress` seen by the loop when it reaches relative index `i`
of the remaining list `l`, given that `pp` was the progress of the phase
just before `l`. -/
def prevOf (l : List Phase) (i : ℕ) (pp : ℚ) : ℚ :=
  if i = 0 then pp else (phaseAt l (i - 1)).progress

lemma cumDuration_zero (phases : List Phase) : cumDuration phases 0 = 0 := rfl

lemma cumDuration_cons_succ (p : Phase) (l : List Phase) (i : ℕ) :
    cumDuration (p :: l) (i + 1) = p.duration + cumDuration l i := by
  simp [cumDuration]

lemma cumDuration_length (phases : List Phase) :
    cumDuration phases phases.length = totalDuration phases := by
  simp [cumDuration, totalDuration]

lemma phaseAt_cons_succ (p : Phase) (l : List Phase) (i : ℕ) :
    phaseAt (p :: l) (i + 1) = phaseAt l i := rfl

lemma phaseAt_cons_zero (p : Phase) (l : List Phase) :
    phaseAt (p :: l) 0 = p := rfl

lemma prevOf_cons_succ (p : Phase) (l : List Phase) (i : ℕ) (pp : ℚ) :
    prevOf (p :: l) (i + 1) pp = prevOf l i p.progress := by
  cases i with
  | zero => simp [prevOf, phaseAt]
  | succ j => simp [prevOf, phaseAt_cons_succ]

lemma prevOf_zero_eq_prevProg (l : List Phase) (i : ℕ) :
    prevOf l i 0 = prevProg l i := rfl

/-- Characterisation of the loop: if `i` is the first (relative) index
whose cumulative end-time reaches `elapsed`, the loop stops there and
returns the in-phase interpolation formula. -/
lemma phaseLoop_first (elapsed : ℚ) (n : ℕ) :
    ∀ (l : List Phase) (i : ℕ) (acc pp : ℚ) (k : ℕ),
      i < l.length →
      elapsed ≤ acc + cumDuration l (i + 1) →
      (∀ j, j < i → acc + cumDuration l (j + 1) < elapsed) →
      phaseLoop elapsed n l acc pp k =
        ⟨min (prevOf l i pp +
              (elapsed - (acc + cumDuration l i)) / (phaseAt l i).duration *
                ((phaseAt l i).progress - prevOf l i pp))
             (phaseAt l i).progress, k + i, false⟩ := by
  intro l
  induction l with
  | nil =>
    intro i acc pp k hi _ _
    simp at hi
  | cons p rest ih =>
    intro i acc pp k hi hle hfirst
    cases i with
    | zero =>
      rw [phaseLoop,
        if_pos (by simpa [cumDuration_cons_succ, cumDuration_zero] using hle)]
      simp [prevOf, phaseAt_cons_zero, cumDuration_zero]
    | succ i' =>
      have hgt : acc + p.duration < elapsed := by
        have h0 := hfirst 0 (Nat.succ_pos i')
        simpa [cumDuration_cons_succ, cumDuration_zero] using h0
      rw [phaseLoop, if_neg (not_le_of_lt hgt)]
      have hrest :
          phaseLoop elapsed n rest (acc + p.duration) p.progress (k + 1) =
            ⟨min (prevOf rest i' p.progress +
                  (elapsed - (acc + p.duration + cumDuration rest i')) /
                      (phaseAt rest i').duration *
                    ((phaseAt rest i').progress - prevOf rest i' p.progress))
                 (phaseAt rest i').progress, k + 1 + i', false⟩ := by
        refine ih i' (acc + p.duration) p.progress (k + 1) (by simpa using hi) ?_ ?_
        · have := hle
          rw [cumDuration_cons_succ] at this
          linarith
        · intro j hj
          have := hfirst (j + 1) (by omega)
          rw [cumDuration_cons_succ] at this
          linarith
      rw [hrest, prevOf_cons_succ, phaseAt_cons_succ, cumDuration_cons_succ]
      have hk : k + 1 + i' = k + (i' + 1) := by omega
      rw [hk, add_assoc]

/-- If the run is not yet complete, a first phase whose cumulative
end-time reaches `elapsed` exists. -/
lemma exists_first_index (phases : List Phase) (elapsed : ℚ)
    (hne : phases ≠ []) (hlt : elapsed < totalDuration phases) :
    ∃ i, i < phases.length ∧ elapsed ≤ cumDuration phases (i + 1) ∧
      ∀ j, j < i → cumDuration phases (j + 1) < elapsed := by
  have hlen : 0 < phases.length := List.length_pos.mpr hne
  have hP : elapsed ≤ cumDuration phases ((phases.length - 1) + 1) := by
    rw [Nat.sub_add_cancel hlen, cumDuration_length]
    exact le_of_lt hlt
  have hex : ∃ i, elapsed ≤ cumDuration phases (i + 1) := ⟨_, hP⟩
  refine ⟨Nat.find hex, ?_, Nat.find_spec hex, ?_⟩
  · have : Nat.find hex ≤ phases.length - 1 := Nat.find_min' hex hP
    omega
  · intro j hj
    exact not_le.mp (Nat.find_min hex hj)

/-- Early-return branch of `calculateCurrentProgress` (server.js 44-50). -/
lemma calc_complete (phases : List Phase) (elapsed : ℚ)
    (h : totalDuration phases ≤ elapsed) :
    calcProgress phases elapsed = ⟨100, phases.length - 1, true⟩ := by
  rw [calcProgress, if_pos h]

/-- In-phase branch of `calculateCurrentProgress`, phrased over the whole
phase list. -/
lemma calc_in_phase (phases : List Phase) (elapsed : ℚ) (i : ℕ)
    (hi : i < phases.length)
    (hlt : elapsed < totalDuration phases)
    (hle : elapsed ≤ cumDuration phases (i + 1))
    (hfirst : ∀ j, j < i → cumDuration phases (j + 1) < elapsed) :
    calcProgress phases elapsed =
      ⟨min (prevProg phases i +
            (elapsed - cumDuration phases i) / (phaseAt phases i).duration *
              ((phaseAt phases i).progress - prevProg phases i))
           (phaseAt phases i).progress, i, false⟩ := by
  rw [calcProgress, if_neg (not_le_of_lt hlt)]
  have h := phaseLoop_first elapsed phases.length phases i 0 0 0 hi
    (by simpa using hle) (by intro j hj; simpa using hfirst j hj)
  simpa [prevOf_zero_eq_prevProg] using h

/-- The returned phase index is always in range. -/
lemma calcProgress_phaseIndex_lt (phases : List Phase) (hne : phases ≠ [])
    (elapsed : ℚ) :
    (calcProgress phases elapsed).phaseIndex < phases.length := by
  have hlen : 0 < phases.length := List.length_pos.mpr hne
  by_cases h : totalDuration phases ≤ elapsed
  · rw [calc_complete _ _ h]
    show phases.length - 1 < phases.length
    omega
  · obtain ⟨i, hi, hle, hfirst⟩ :=
      exists_first_index phases elapsed hne (not_le.mp h)
    rw [calc_in_phase phases elapsed i hi (not_le.mp h) hle hfirst]
    exact hi

/-- The `isComplete` flag holds exactly when the total duration has elapsed. -/
lemma calcProgress_isComplete_iff (phases : List Phase) (hne : phases ≠ [])
    (elapsed : ℚ) :
    (calcProgress phases elapsed).isComplete = true ↔
      totalDuration phases ≤ elapsed := by
  by_cases h : totalDuration phases ≤ elapsed
  · simp [calc_complete _ _ h, h]
  · obtain ⟨i, hi, hle, hfirst⟩ :=
      exists_first_index phases elapsed hne (not_le.mp h)
    simp [calc_in_phase phases elapsed i hi (not_le.mp h) hle hfirst, h]

lemma phaseAt_eq_getElem (l : List Phase) (i : ℕ) (h : i < l.length) :
    phaseAt l i = l[i] := List.getD_eq_getElem l _ h

lemma phaseAt_mem (l : List Phase) (i : ℕ) (h : i < l.length) :
    phaseAt l i ∈ l := by
  rw [phaseAt_eq_getElem l i h]
  exact List.getElem_mem h

lemma phaseAt_progress_lt (l : List Phase)
    (hinc : l.Pairwise (fun a b => a.progress < b.progress))
    {i j : ℕ} (hij : i < j) (hj : j < l.length) :
    (phaseAt l i).progress < (phaseAt l j).progress := by
  rw [List.pairwise_iff_getElem] at hinc
  rw [phaseAt_eq_getElem l i (lt_trans hij hj), phaseAt_eq_getElem l j hj]
  exact hinc i j _ hj hij

lemma phaseAt_progress_le (l : List Phase)
    (hinc : l.Pairwise (fun a b => a.progress < b.progress))
    {i j : ℕ} (hij : i ≤ j) (hj : j < l.length) :
    (phaseAt l i).progress ≤ (phaseAt l j).progress := by
  rcases eq_or_lt_of_le hij with rfl | h
  · exact le_refl _
  · exact le_of_lt (phaseAt_progress_lt l hinc h hj)

lemma prevProg_le_phaseAt (l : List Phase)
    (hinc : l.Pairwise (fun a b => a.progress < b.progress))
    (hge0 : ∀ p ∈ l, 0 ≤ p.progress)
    {i : ℕ} (hi : i < l.length) :
    prevProg l i ≤ (phaseAt l i).progress := by
  by_cases h0 : i = 0
  · subst h0
    rw [prevProg, if_pos rfl]
    exact hge0 _ (phaseAt_mem l 0 hi)
  · rw [prevProg, if_neg h0]
    exact le_of_lt (phaseAt_progress_lt l hinc (by omega) hi)

lemma prevProg_nonneg (l : List Phase) (hge0 : ∀ p ∈ l, 0 ≤ p.progress)
    {i : ℕ} (hi : i < l.length) : 0 ≤ prevProg l i := by
  by_cases h0 : i = 0
  · simp [prevProg, h0]
  · rw [prevProg, if_neg h0]
    exact hge0 _ (phaseAt_mem l (i - 1) (by omega))

/-- The phase-local interpolation term is non-negative at the selected
phase. -/
lemma in_phase_term_nonneg (phases : List Phase) (elapsed : ℚ) (i : ℕ)
    (hpos : ∀ p ∈ phases, 0 < p.duration)
    (hinc : phases.Pairwise (fun a b => a.progress < b.progress))
    (hge0 : ∀ p ∈ phases, 0 ≤ p.progress)
    (hi : i < phases.length)
    (h0 : 0 ≤ elapsed)
    (hfirst : ∀ j, j < i → cumDuration phases (j + 1) < elapsed) :
    0 ≤ (elapsed - cumDuration phases i) / (phaseAt phases i).duration *
        ((phaseAt phases i).progress - prevProg phases i) := by
  have hd : 0 < (phaseAt phases i).duration := hpos _ (phaseAt_mem _ _ hi)
  have hcb : cumDuration phases i ≤ elapsed := by
    cases i with
    | zero => simpa [cumDuration_zero] using h0
    | succ j => exact le_of_lt (hfirst j (Nat.lt_succ_self j))
  have hpp := prevProg_le_phaseAt phases hinc hge0 hi
  exact mul_nonneg (div_nonneg (by linarith) (le_of_lt hd)) (by linarith)

/-- At the selected phase, the returned progress lies between the previous
phase's cumulative progress and the selected phase's cumulative progress. -/
lemma calc_in_phase_bounds (phases : List Phase) (elapsed : ℚ) (i : ℕ)
    (hpos : ∀ p ∈ phases, 0 < p.duration)
    (hinc : phases.Pairwise (fun a b => a.progress < b.progress))
    (hge0 : ∀ p ∈ phases, 0 ≤ p.progress)
    (hi : i < phases.length)
    (hlt : elapsed < totalDuration phases)
    (hle : elapsed ≤ cumDuration phases (i + 1))
    (hfirst : ∀ j, j < i → cumDuration phases (j + 1) < elapsed)
    (h0 : 0 ≤ elapsed) :
    prevProg phases i ≤ (calcProgress phases elapsed).progress ∧
      (calcProgress phases elapsed).progress ≤ (phaseAt phases i).progress := by
  rw [calc_in_phase phases elapsed i hi hlt hle hfirst]
  dsimp only
  constructor
  · refine le_min ?_ (prevProg_le_phaseAt phases hinc hge0 hi)
    have := in_phase_term_nonneg phases elapsed i hpos hinc hge0 hi h0 hfirst
    linarith
  · exact min_le_right _ _

lemma calcProgress_nonneg (phases : List Phase) (hne : phases ≠ [])
    (hpos : ∀ p ∈ phases, 0 < p.duration)
    (hinc : phases.Pairwise (fun a b => a.progress < b.progress))
    (hge0 : ∀ p ∈ phases, 0 ≤ p.progress)
    (elapsed : ℚ) (h0 : 0 ≤ elapsed) :
    0 ≤ (calcProgress phases elapsed).progress := by
  by_cases h : totalDuration phases ≤ elapsed
  · rw [calc_complete _ _ h]
    show (0:ℚ) ≤ 100
    norm_num
  · obtain ⟨i, hi, hle, hfirst⟩ :=
      exists_first_index phases elapsed hne (not_le.mp h)
    have hb := calc_in_phase_bounds phases elapsed i hpos hinc hge0 hi
      (not_le.mp h) hle hfirst h0
    have := prevProg_nonneg phases hge0 hi
    linarith [hb.1]

lemma calcProgress_le_100 (phases : List Phase) (hne : phases ≠ [])
    (h100 : ∀ p ∈ phases, p.progress ≤ 100) (elapsed : ℚ) :
    (calcProgress phases elapsed).progress ≤ 100 := by
  by_cases h : totalDuration phases ≤ elapsed
  · rw [calc_complete _ _ h]
  · obtain ⟨i, hi, hle, hfirst⟩ :=
      exists_first_index phases elapsed hne (not_le.mp h)
    rw [calc_in_phase phases elapsed i hi (not_le.mp h) hle hfirst]
    dsimp only
    exact le_trans (min_le_right _ _) (h100 _ (phaseAt_mem _ _ hi))

/-- The minimal selected index is monotone in elapsed time. -/
lemma min_index_le (phases : List Phase) (e1 e2 : ℚ) (i1 i2 : ℕ)
    (hle2 : e2 ≤ cumDuration phases (i2 + 1))
    (hfirst1 : ∀ j, j < i1 → cumDuration phases (j + 1) < e1)
    (h12 : e1 ≤ e2) : i1 ≤ i2 := by
  by_contra hcon
  push_neg at hcon
  have := hfirst1 i2 hcon
  linarith

/-- Monotonicity of the returned progress in elapsed time, on
`[0, totalDuration]`. -/
lemma calcProgress_mono (phases : List Phase) (hne : phases ≠ [])
    (hpos : ∀ p ∈ phases, 0 < p.duration)
    (hinc : phases.Pairwise (fun a b => a.progress < b.progress))
    (hge0 : ∀ p ∈ phases, 0 ≤ p.progress)
    (h100 : ∀ p ∈ phases, p.progress ≤ 100)
    (e1 e2 : ℚ) (h0 : 0 ≤ e1) (h12 : e1 ≤ e2) (h2 : e2 ≤ totalDuration phases) :
    (calcProgress phases e1).progress ≤ (calcProgress phases e2).progress := by
  by_cases hc2 : totalDuration phases ≤ e2
  · rw [calc_complete _ _ hc2]
    exact le_trans (calcProgress_le_100 phases hne h100 e1) (by norm_num)
  · have hlt2 : e2 < totalDuration phases := not_le.mp hc2
    have hlt1 : e1 < totalDuration phases := lt_of_le_of_lt h12 hlt2
    obtain ⟨i1, hi1, hle1, hfirst1⟩ := exists_first_index phases e1 hne hlt1
    obtain ⟨i2, hi2, hle2, hfirst2⟩ := exists_first_index phases e2 hne hlt2
    have hii : i1 ≤ i2 := min_index_le phases e1 e2 i1 i2 hle2 hfirst1 h12
    rcases eq_or_lt_of_le hii with rfl | hlt
    · rw [calc_in_phase phases e1 i1 hi1 hlt1 hle1 hfirst1,
          calc_in_phase phases e2 i1 hi2 hlt2 hle2 hfirst2]
      dsimp only
      have hd : 0 < (phaseAt phases i1).duration := hpos _ (phaseAt_mem _ _ hi1)
      have hpp : prevProg phases i1 ≤ (phaseAt phases i1).progress :=
        prevProg_le_phaseAt phases hinc hge0 hi1
      refine min_le_min (add_le_add_left ?_ _) (le_refl _)
      refine mul_le_mul_of_nonneg_right ?_ (by linarith)
      exact (div_le_div_iff_of_pos_right hd).mpr (by linarith)
    · have hb1 := calc_in_phase_bounds phases e1 i1 hpos hinc hge0 hi1
        hlt1 hle1 hfirst1 h0
      have hb2 := calc_in_phase_bounds phases e2 i2 hpos hinc hge0 hi2
        hlt2 hle2 hfirst2 (le_trans h0 h12)
      have hchain : (phaseAt phases i1).progress ≤ prevProg phases i2 := by
        rw [prevProg, if_neg (by omega : ¬ i2 = 0)]
        exact phaseAt_progress_le phases hinc (by omega) (by omega)
      linarith [hb1.2, hb2.1]

/-- Monotonicity of the returned phase index in elapsed time. -/
lemma calcProgress_phaseIndex_mono (phases : List Phase) (hne : phases ≠ [])
    (e1 e2 : ℚ) (h12 : e1 ≤ e2) :
    (calcProgress phases e1).phaseIndex ≤ (calcProgress phases e2).phaseIndex := by
  by_cases hc1 : totalDuration phases ≤ e1
  · rw [calc_complete _ _ hc1, calc_complete _ _ (le_trans hc1 h12)]
  · have hlt1 := not_le.mp hc1
    obtain ⟨i1, hi1, hle1, hfirst1⟩ := exists_first_index phases e1 hne hlt1
    rw [calc_in_phase phases e1 i1 hi1 hlt1 hle1 hfirst1]
    by_cases hc2 : totalDuration phases ≤ e2
    · rw [calc_complete _ _ hc2]
      show i1 ≤ phases.length - 1
      omega
    · have hlt2 := not_le.mp hc2
      obtain ⟨i2, hi2, hle2, hfirst2⟩ := exists_first_index phases e2 hne hlt2
      rw [calc_in_phase phases e2 i2 hi2 hlt2 hle2 hfirst2]
      show i1 ≤ i2
      exact min_index_le phases e1 e2 i1 i2 hle2 hfirst1 h12

lemma maintenancePhases_ne_nil : maintenancePhases ≠ [] := by
  simp [maintenancePhases]

lemma maintenancePhases_duration_pos : ∀ p ∈ maintenancePhases, 0 < p.duration := by
  intro p hp
  simp only [maintenancePhases, List.mem_cons, List.not_mem_nil, or_false] at hp
  rcases hp with rfl | rfl | rfl | rfl | rfl | rfl | rfl <;> norm_num

lemma maintenancePhases_progress_range :
    ∀ p ∈ maintenancePhases, 0 ≤ p.progress ∧ p.progress ≤ 100 := by
  intro p hp
  simp only [maintenancePhases, List.mem_cons, List.not_mem_nil, or_false] at hp
  rcases hp with rfl | rfl | rfl | rfl | rfl | rfl | rfl <;> norm_num

lemma maintenancePhases_pairwise :
    maintenancePhases.Pairwise (fun a b => a.progress < b.progress) := by
  norm_num [maintenancePhases]

/-- C1: for every non-empty phase list with strictly increasing cumulative
progress values and positive durations, and every elapsed time with
`0 ≤ elapsed < totalDuration`, the calculator selects the first phase whose
cumulative end-time (sum of durations up to and including it) is `≥`
elapsed, and returns the previous phase's cumulative-progress value plus
`(elapsed - cumulativeDurationBeforePhase) / phase.durationSeconds` scaled
into the progress range between the previous phase's cumulative-progress
value and this phase's, clamped so it never exceeds this phase's
cumulative-progress value. -/
theorem claim1_first_phase_interpolation (phases : List Phase) (elapsed : ℚ)
    (hne : phases ≠ [])
    (hinc : phases.Pairwise (fun a b => a.progress < b.progress))
    (hpos : ∀ p ∈ phases, 0 < p.duration)
    (h0 : 0 ≤ elapsed) (hlt : elapsed < totalDuration phases) :
    ∃ i, i < phases.length ∧
      elapsed ≤ cumDuration phases (i + 1) ∧
      (∀ j, j < i → cumDuration phases (j + 1) < elapsed) ∧
      calcProgress phases elapsed =
        ⟨min (prevProg phases i +
              (elapsed - cumDuration phases i) / (phaseAt phases i).duration *
                ((phaseAt phases i).progress - prevProg phases i))
             (phaseAt phases i).progress, i, false⟩ := by
  obtain ⟨i, hi, hle, hfirst⟩ := exists_first_index phases elapsed hne hlt
  exact ⟨i, hi, hle, hfirst, calc_in_phase phases elapsed i hi hlt hle hfirst⟩

/-- Witness for C1 on the server's configuration at elapsed = 4 s. -/
theorem claim1_first_phase_interpolation_witness :
    ∃ i, i < maintenancePhases.length ∧
      (4:ℚ) ≤ cumDuration maintenancePhases (i + 1) ∧
      (∀ j, j < i → cumDuration maintenancePhases (j + 1) < 4) ∧
      calcProgress maintenancePhases 4 =
        ⟨min (prevProg maintenancePhases i +
              ((4:ℚ) - cumDuration maintenancePhases i) /
                  (phaseAt maintenancePhases i).duration *
                ((phaseAt maintenancePhases i).progress - prevProg maintenancePhases i))
             (phaseAt maintenancePhases i).progress, i, false⟩ :=
  claim1_first_phase_interpolation maintenancePhases 4
    maintenancePhases_ne_nil
    maintenancePhases_pairwise
    maintenancePhases_duration_pos
    (by norm_num)
    (by norm_num [totalDuration, maintenancePhases])

/-- C2: for a maintenance run satisfying the input constraints, the
returned progress is monotonically non-decreasing in elapsed time, and for
every elapsed time in `[0, totalDuration]` it lies in `[0, 100]`. -/
theorem claim2_progress_monotone_bounded (phases : List Phase)
    (hne : phases ≠ [])
    (hpos : ∀ p ∈ phases, 0 < p.duration)
    (hinc : phases.Pairwise (fun a b => a.progress < b.progress))
    (hrange : ∀ p ∈ phases, 0 ≤ p.progress ∧ p.progress ≤ 100) :
    (∀ e1 e2 : ℚ, 0 ≤ e1 → e1 ≤ e2 → e2 ≤ totalDuration phases →
      (calcProgress phases e1).progress ≤ (calcProgress phases e2).progress) ∧
    (∀ e : ℚ, 0 ≤ e → e ≤ totalDuration phases →
      0 ≤ (calcProgress phases e).progress ∧
        (calcProgress phases e).progress ≤ 100) := by
  have hge0 : ∀ p ∈ phases, 0 ≤ p.progress := fun p hp => (hrange p hp).1
  have h100 : ∀ p ∈ phases, p.progress ≤ 100 := fun p hp => (hrange p hp).2
  refine ⟨fun e1 e2 h0 h12 h2 =>
    calcProgress_mono phases hne hpos hinc hge0 h100 e1 e2 h0 h12 h2,
    fun e h0 _ => ⟨calcProgress_nonneg phases hne hpos hinc hge0 e h0,
      calcProgress_le_100 phases hne h100 e⟩⟩

/-- Witness for C2 on the server's configuration. -/
theorem claim2_progress_monotone_bounded_witness :
    (calcProgress maintenancePhases 10).progress ≤
      (calcProgress maintenancePhases 20).progress :=
  (claim2_progress_monotone_bounded maintenancePhases
    maintenancePhases_ne_nil
    maintenancePhases_duration_pos
    maintenancePhases_pairwise
    maintenancePhases_progress_range).1
    10 20 (by norm_num) (by norm_num)
    (by norm_num [totalDuration, maintenancePhases])

/-- C3: for every elapsed time at or beyond the total duration, the status
response reports progress 100, the last phase index, isComplete, and zero
remaining seconds. -/
theorem claim3_complete_after_total (st : MaintenanceState) (now : ℚ)
    (h : totalDurationSeconds ≤ (now - st.startTime) / 1000) :
    (getStatusHandler st now).2.progress = 100 ∧
    (getStatusHandler st now).2.phaseIndex = maintenancePhases.length - 1 ∧
    (getStatusHandler st now).2.isComplete = true ∧
    (getStatusHandler st now).2.remainingTimeSeconds = 0 := by
  have hcalc := calc_complete maintenancePhases ((now - st.startTime) / 1000) h
  refine ⟨?_, ?_, ?_, ?_⟩
  · show (calcProgress maintenancePhases ((now - st.startTime) / 1000)).progress = 100
    rw [hcalc]
  · show (calcProgress maintenancePhases
      ((now - st.startTime) / 1000)).phaseIndex = maintenancePhases.length - 1
    rw [hcalc]
  · show (calcProgress maintenancePhases
      ((now - st.startTime) / 1000)).isComplete = true
    rw [hcalc]
  · show max 0 (totalDurationSeconds - (now - st.startTime) / 1000) = 0
    exact max_eq_left (by linarith)

/-- Witness for C3: start at 0 ms, read the status at 5 000 000 ms. -/
theorem claim3_complete_after_total_witness :
    (getStatusHandler ⟨0, 0, 0, false, 0⟩ 5000000).2.progress = 100 ∧
    (getStatusHandler ⟨0, 0, 0, false, 0⟩ 5000000).2.phaseIndex =
      maintenancePhases.length - 1 ∧
    (getStatusHandler ⟨0, 0, 0, false, 0⟩ 5000000).2.isComplete = true ∧
    (getStatusHandler ⟨0, 0, 0, false, 0⟩ 5000000).2.remainingTimeSeconds = 0 :=
  claim3_complete_after_total ⟨0, 0, 0, false, 0⟩ 5000000
    (by norm_num [totalDurationSeconds, totalDuration, maintenancePhases])

/-- C4: for every state and instant, the status response satisfies
`isComplete = true` if and only if `remainingTimeSeconds = 0`. -/
theorem claim4_isComplete_iff_remaining_zero (st : MaintenanceState) (now : ℚ) :
    ((getStatusHandler st now).2.isComplete = true ↔
      (getStatusHandler st now).2.remainingTimeSeconds = 0) := by
  show (calcProgress maintenancePhases ((now - st.startTime) / 1000)).isComplete = true ↔
    max 0 (totalDurationSeconds - (now - st.startTime) / 1000) = 0
  rw [calcProgress_isComplete_iff maintenancePhases maintenancePhases_ne_nil
    ((now - st.startTime) / 1000), max_eq_left_iff]
  unfold totalDurationSeconds
  constructor
  · intro hle
    linarith
  · intro hle
    linarith

/-- C5 counterexample: the claim says a status read leaves every field of
the process-wide state unchanged, but the handler rewrites the cached
fields; at start 0 and now = 1000 ms the stored `lastUpdated` (and
`currentProgress`) change. -/
theorem claim5_counterexample :
    (getStatusHandler ⟨0, 0, 0, false, 0⟩ 1000).1 ≠ ⟨0, 0, 0, false, 0⟩ := by
  intro hcon
  have h2 : (1000:ℚ) = 0 := congrArg MaintenanceState.lastUpdated hcon
  norm_num at h2

/-- C5 amended: a status read preserves `startTime` (the only field the
progress computation depends on) but overwrites the cached fields
`currentProgress`, `currentPhaseIndex`, `isComplete` and `lastUpdated`
with freshly computed values; reset replaces the whole state, setting
`startTime` to now and the cached fields to their startup values. -/
theorem claim5_amended_state_effects (st : MaintenanceState) (now : ℚ) :
    (getStatusHandler st now).1 =
      { startTime := st.startTime
        currentProgress :=
          (calculateCurrentProgress maintenancePhases st.startTime now).progress
        currentPhaseIndex :=
          (calculateCurrentProgress maintenancePhases st.startTime now).phaseIndex
        isComplete :=
          (calculateCurrentProgress maintenancePhases st.startTime now).isComplete
        lastUpdated := now } ∧
    resetHandler now = ⟨now, 0, 0, false, now⟩ :=
  ⟨rfl, rfl⟩

/-- The scenario phase list from the spec's testable properties
(`[{10,3},{25,8},{45,12}]`, names omitted). -/
def scenarioPhases : List Phase :=
  [⟨"", 10, 3⟩, ⟨"", 25, 8⟩, ⟨"", 45, 12⟩]

/-- C6 counterexample: at elapsed = 3 (the first phase boundary) the code
reports phase index 0, not 1 — the loop condition `elapsed <= phaseEndTime`
keeps the boundary instant inside the earlier phase. -/
theorem claim6_counterexample :
    (calcProgress scenarioPhases 3).phaseIndex = 0 ∧
      (calcProgress scenarioPhases 3).phaseIndex ≠ 1 := by
  have h : calcProgress scenarioPhases 3 = ⟨10, 0, false⟩ := by
    norm_num [calcProgress, phaseLoop, totalDuration, scenarioPhases]
  rw [h]
  norm_num

/-- C6 amended: same scenario, with the boundary behaviour as the code
has it: at elapsed = 0 the snapshot is progress 0, phase 0, not complete,
remaining 23 s; at elapsed = 3 progress is 10 but the phase index is
still 0 (it moves to 1 only for elapsed strictly greater than 3); at
elapsed = 23 progress is 100, the run is complete and 0 s remain. -/
theorem claim6_amended_scenario :
    calcProgress scenarioPhases 0 = ⟨0, 0, false⟩ ∧
    remainingOf scenarioPhases 0 = 23 ∧
    (calcProgress scenarioPhases 3).progress = 10 ∧
    (calcProgress scenarioPhases 3).phaseIndex = 0 ∧
    calcProgress scenarioPhases 23 = ⟨100, 2, true⟩ ∧
    remainingOf scenarioPhases 23 = 0 := by
  have h3 : calcProgress scenarioPhases 3 = ⟨10, 0, false⟩ := by
    norm_num [calcProgress, phaseLoop, totalDuration, scenarioPhases]
  refine ⟨?_, ?_, ?_, ?_, ?_, ?_⟩ <;>
    first
      | rw [h3]
      | norm_num [calcProgress, phaseLoop, totalDuration, remainingOf,
          scenarioPhases]

/-- C7 counterexample: with start timestamp 1000 ms and current time 0 ms
(elapsed = −1 s), the snapshot differs from the zero-elapsed snapshot and
the returned progress is negative. -/
theorem claim7_counterexample :
    calculateCurrentProgress maintenancePhases 1000 0 ≠
      calculateCurrentProgress maintenancePhases 1000 1000 ∧
    (calculateCurrentProgress maintenancePhases 1000 0).progress < 0 := by
  have h1 : calculateCurrentProgress maintenancePhases 1000 0 =
      ⟨-10/3, 0, false⟩ := by
    norm_num [calculateCurrentProgress, calcProgress, phaseLoop,
      totalDuration, maintenancePhases]
  have h2 : calculateCurrentProgress maintenancePhases 1000 1000 =
      ⟨0, 0, false⟩ := by
    norm_num [calculateCurrentProgress, calcProgress, phaseLoop,
      totalDuration, maintenancePhases]
  rw [h1, h2]
  refine ⟨?_, by norm_num⟩
  intro hcon
  have h3 : (-10/3 : ℚ) = 0 := congrArg PhaseResult.progress hcon
  norm_num at h3

/-- C7 amended: for a current time earlier than the start timestamp the
calculator still selects phase 0 with `isComplete = false`, but instead of
treating the elapsed time as zero it returns the negative interpolation
value `elapsed / 3 * 10` (first-phase duration 3 s, progress target 10). -/
theorem claim7_amended_negative_elapsed (startTime now : ℚ)
    (h : now < startTime) :
    calculateCurrentProgress maintenancePhases startTime now =
      ⟨(now - startTime) / 1000 / 3 * 10, 0, false⟩ ∧
    (now - startTime) / 1000 / 3 * 10 < 0 := by
  have he : (now - startTime) / 1000 < 0 :=
    div_neg_of_neg_of_pos (by linarith) (by norm_num)
  have hneg : (now - startTime) / 1000 / 3 * 10 < 0 :=
    mul_neg_of_neg_of_pos (div_neg_of_neg_of_pos he (by norm_num)) (by norm_num)
  have ht : totalDuration maintenancePhases = 4803 := by
    norm_num [totalDuration, maintenancePhases]
  have hc := calc_in_phase maintenancePhases ((now - startTime) / 1000) 0
    (by norm_num [maintenancePhases])
    (by rw [ht]; linarith)
    (by have : cumDuration maintenancePhases 1 = 3 := by
          norm_num [cumDuration, maintenancePhases]
        rw [this]; linarith)
    (by intro j hj; omega)
  refine ⟨?_, hneg⟩
  show calcProgress maintenancePhases ((now - startTime) / 1000) = _
  rw [hc]
  have hpa : phaseAt maintenancePhases 0 =
      ⟨"Initializing maintenance", 10, 3⟩ := rfl
  have hpp : prevProg maintenancePhases 0 = 0 := rfl
  rw [hpa, hpp, cumDuration_zero]
  have harith : (0:ℚ) + ((now - startTime) / 1000 - 0) / 3 * (10 - 0) =
      (now - startTime) / 1000 / 3 * 10 := by ring
  rw [harith, min_eq_left (le_trans (le_of_lt hneg) (by norm_num))]

/-- Witness for C7's amended statement at start 1000 ms, now 0 ms. -/
theorem claim7_amended_negative_elapsed_witness :
    calculateCurrentProgress maintenancePhases 1000 0 =
      ⟨((0:ℚ) - 1000) / 1000 / 3 * 10, 0, false⟩ ∧
    ((0:ℚ) - 1000) / 1000 / 3 * 10 < 0 :=
  claim7_amended_negative_elapsed 1000 0 (by norm_num)

/-- Modelled from the spec's remaining-time formatting rules, amended so
that the minutes part always uses the plural "minutes" (only "1 hour" gets
a singular special case): 0 → "Complete"; under 60 minutes →
"N minutes" with N = ⌈seconds/60⌉; otherwise the hour part
("1 hour" or "H hours") followed, when the leftover minutes are nonzero,
by " M minutes". -/
def specFormatRemaining (remainingSeconds : ℚ) : String :=
  if remainingSeconds = 0 then "Complete"
  else
    let n : ℤ := ⌈remainingSeconds / 60⌉
    if n < 60 then toString n ++ " minutes"
    else
      (if n / 60 = 1 then "1 hour" else toString (n / 60) ++ " hours") ++
        (if n % 60 = 0 then "" else " " ++ toString (n % 60) ++ " minutes")

/-- C8 counterexample: at 3660 s the client formatter emits the plural
"1 hour 1 minutes"; the claimed singular form "1 hour 1 minute" never
occurs (the code never singular-cases minutes). -/
theorem claim8_counterexample :
    getRemainingTime 3660 = "1 hour 1 minutes" ∧
      getRemainingTime 3660 ≠ "1 hour 1 minute" := by
  have h : ⌈(3660:ℚ) / 60⌉ = 61 := by rw [Int.ceil_eq_iff]; norm_num
  have hv : getRemainingTime 3660 = "1 hour 1 minutes" := by
    rw [getRemainingTime, if_neg (by norm_num : ¬ (3660:ℚ) ≤ 0)]
    simp only [h]
    norm_num
    rfl
  exact ⟨hv, by rw [hv]; decide⟩

/-- C8 amended: for every non-negative input the client formatter agrees
with the spec's rules amended so that the minutes part is always plural
("N minutes", including N = 1); only "1 hour" is singular-cased. -/
theorem claim8_amended_formatting (r : ℚ) (h0 : 0 ≤ r) :
    getRemainingTime r = specFormatRemaining r := by
  by_cases hz : r = 0
  · subst hz
    simp [getRemainingTime, specFormatRemaining]
  · have hpos : 0 < r := lt_of_le_of_ne h0 (Ne.symm hz)
    simp only [getRemainingTime, specFormatRemaining,
      if_neg (not_le_of_lt hpos), if_neg hz]
    by_cases hlt : (⌈r / 60⌉ : ℤ) < 60
    · rw [if_pos hlt, if_pos hlt]
    · rw [if_neg hlt, if_neg hlt]
      by_cases hm : (⌈r / 60⌉ : ℤ) % 60 = 0
      · rw [if_pos hm, if_pos hm]
        by_cases h1 : (⌈r / 60⌉ : ℤ) / 60 = 1
        · rw [if_pos h1, String.append_empty]
        · rw [if_neg h1, String.append_empty]
      · rw [if_neg hm, if_neg hm]
        by_cases h1 : (⌈r / 60⌉ : ℤ) / 60 = 1
        · rw [if_pos h1, if_pos h1,
            show ("1 hour " : String) = "1 hour" ++ " " from rfl]
          simp only [String.append_assoc]
        · rw [if_neg h1, if_neg h1,
            show (" hours " : String) = " hours" ++ " " from rfl]
          simp only [String.append_assoc]

/-- Witness for C8's amended statement at 3660 s. -/
theorem claim8_amended_formatting_witness :
    getRemainingTime 3660 = specFormatRemaining 3660 :=
  claim8_amended_formatting 3660 (by norm_num)

/-- C9: for a fixed maintenance run the active phase index is
monotonically non-decreasing in elapsed time and is always a valid index
into the phase list. -/
theorem claim9_phaseIndex_monotone_valid (phases : List Phase)
    (hne : phases ≠ []) :
    (∀ e1 e2 : ℚ, e1 ≤ e2 →
      (calcProgress phases e1).phaseIndex ≤
        (calcProgress phases e2).phaseIndex) ∧
    (∀ e : ℚ, (calcProgress phases e).phaseIndex < phases.length) :=
  ⟨fun e1 e2 h12 => calcProgress_phaseIndex_mono phases hne e1 e2 h12,
   fun e => calcProgress_phaseIndex_lt phases hne e⟩

/-- Witness for C9 on the server's configuration. -/
theorem claim9_phaseIndex_monotone_valid_witness :
    (calcProgress maintenancePhases 2).phaseIndex ≤
        (calcProgress maintenancePhases 50).phaseIndex ∧
      (calcProgress maintenancePhases 50).phaseIndex <
        maintenancePhases.length :=
  ⟨(claim9_phaseIndex_monotone_valid maintenancePhases
      maintenancePhases_ne_nil).1 2 50 (by norm_num),
   (claim9_phaseIndex_monotone_valid maintenancePhases
      maintenancePhases_ne_nil).2 50⟩

/-- C10: the phase index produced by the calculator always indexes an
existing entry of the compiled-in phase list, so the `||` fallback in the
status handler is never taken and `currentPhase` always equals
`phases[phaseIndex]`. -/
theorem claim10_fallback_never_taken (st : MaintenanceState) (now : ℚ) :
    (getStatusHandler st now).2.phaseIndex < maintenancePhases.length ∧
    (getStatusHandler st now).2.currentPhase =
      phaseAt maintenancePhases ((getStatusHandler st now).2.phaseIndex) := by
  have hidx := calcProgress_phaseIndex_lt maintenancePhases
    maintenancePhases_ne_nil ((now - st.startTime) / 1000)
  refine ⟨hidx, ?_⟩
  show (maintenancePhases.get?
      ((calcProgress maintenancePhases
        ((now - st.startTime) / 1000)).phaseIndex)).getD
      (maintenancePhases.getD (maintenancePhases.length - 1) ⟨"", 0, 0⟩) =
    phaseAt maintenancePhases
      ((calcProgress maintenancePhases ((now - st.startTime) / 1000)).phaseIndex)
  rw [List.get?_eq_get hidx, Option.getD_some, phaseAt_eq_getElem _ _ hidx,
    List.get_eq_getElem]
